import Mathlib

/-!
Verification of the tele-dl media extractor and downloader.

The definitions below are a shallow embedding of the Go sources:
the parser package (media extraction from a Telegraph content tree)
and the downloader package (retry loop, per-job download, worker pool,
result aggregation).  Machine integers are modelled as Nat/Int, maps as
association lists, channels as explicit queues, and I/O as oracle
parameters (explicit environments describing what the filesystem and
the HTTP transport would answer).
-/

namespace TeleDL

/-! ## telegraph package: data model (internal/telegraph/types.go) -/

/-- A loosely typed attribute value (Go `interface{}` as decoded from JSON). -/
inductive AttrVal where
  | str (s : String)
  | num (n : Int)
  | boolVal (b : Bool)
  | nullVal
  deriving Repr, DecidableEq

/-- `ContentNode`: tag, optional attribute map, ordered children. -/
inductive ContentNode where
  | mk (tag : String) (attrs : Option (List (String × AttrVal)))
       (children : List ContentNode)
  deriving Repr

/-- The node's tag. -/
def ContentNode.tag : ContentNode → String
  | .mk t _ _ => t

/-- The node's attribute map (`nil` in Go is `none`). -/
def ContentNode.attrs : ContentNode → Option (List (String × AttrVal))
  | .mk _ a _ => a

/-- The node's children. -/
def ContentNode.children : ContentNode → List ContentNode
  | .mk _ _ c => c

/-- `MediaItem`: URL plus target filename. -/
structure MediaItem where
  url : String
  filename : String
  deriving Repr, DecidableEq

/-- `Content`: the parsed content tree handed to the extractor. -/
structure Content where
  title : String
  nodes : List ContentNode

/-! ## String helpers mirroring the Go standard library functions used -/

/-- `needle` is a prefix of `hay` (character-exact). -/
def listIsPfx : List Char → List Char → Bool
  | [], _ => true
  | _ :: _, [] => false
  | a :: as, b :: bs => a == b && listIsPfx as bs

/-- `needle` occurs contiguously inside `hay` (Go `strings.Contains`). -/
def listIsSub (needle : List Char) : List Char → Bool
  | [] => needle.isEmpty
  | b :: bs => listIsPfx needle (b :: bs) || listIsSub needle bs

/-- Go `strings.Contains s sub`. -/
def strContains (s sub : String) : Bool :=
  listIsSub sub.toList s.toList

/-- Go `filepath.Ext` helper: the characters from the last '.' onwards,
provided no path separator follows that dot; `none` when there is no
extension. -/
def filepathExtAux : List Char → Option (List Char)
  | [] => none
  | c :: rest =>
    match filepathExtAux rest with
    | some e => some e
    | none => if c == '.' && !(rest.contains '/') then some (c :: rest) else none

/-- Go `filepath.Ext`: extension of the final path element, empty if none. -/
def filepathExt (s : String) : String :=
  match filepathExtAux s.toList with
  | some e => String.mk e
  | none => ""

/-- Truncation at the first '?' or '#' (Go `strings.IndexAny(s, "?#")`
followed by slicing). -/
def stripQueryFragment (s : String) : String :=
  String.mk (s.toList.takeWhile (fun c => c != '?' && c != '#'))

/-! ## parser package (the MediaParser of the source) -/

/-- `MediaParser`: configuration of the extractor. `urlFilter = none` models
the Go `nil` function pointer. -/
structure MediaParser where
  supportedTags : List String
  fileExtensions : List String
  urlFilter : Option (String → Bool)

/-- `DefaultConfig` / `New`: the default parser configuration. -/
def defaultParser : MediaParser :=
  { supportedTags := ["img", "video", "audio", "source"],
    fileExtensions := [".jpg", ".jpeg", ".png", ".gif", ".webp", ".mp4",
                       ".mov", ".avi", ".mp3", ".wav"],
    urlFilter := none }

/-- `ParsedMedia`: an accepted media reference with metadata; embeds
`MediaItem` as in the Go struct. -/
structure ParsedMedia where
  item : MediaItem
  tag : String
  alt : String
  title : String
  nodeIndex : Nat
  deriving Repr, DecidableEq

/-- Go map lookup `attrs[key]` over the attribute association list. -/
def lookupAttr (attrs : List (String × AttrVal)) (key : String) : Option AttrVal :=
  (attrs.find? (fun kv => kv.1 == key)).map (fun kv => kv.2)

/-- The `attrs[key].(string)` type assertion: the value if present and
string-typed. -/
def attrString (attrs : List (String × AttrVal)) (key : String) : Option String :=
  match lookupAttr attrs key with
  | some (AttrVal.str s) => some s
  | _ => none

/-- `extractStringAttr`: string attribute or "". -/
def extractStringAttr (attrs : List (String × AttrVal)) (key : String) : String :=
  match attrString attrs key with
  | some s => s
  | none => ""

/-- `isMediaTag`: membership in the configured allow-set. -/
def MediaParser.isMediaTag (mp : MediaParser) (tag : String) : Bool :=
  mp.supportedTags.contains tag

/-- `addExtensionFromURL`: infer an extension when the basename has none. -/
def addExtensionFromURL (mp : MediaParser) (filename url : String) : String :=
  if strContains url "/file/" then filename ++ ".jpg"
  else
    let lowerURL := url.toLower
    match mp.fileExtensions.find? (fun ext => strContains lowerURL (ext.drop 1)) with
    | some ext => filename ++ ext
    | none => filename ++ ".jpg"

/-- `generateFilename`: "<index>_<basename><ext-if-added>". -/
def generateFilename (mp : MediaParser) (url : String) (index : Nat) : String :=
  let base0 :=
    if strContains url "/" then (url.splitOn "/").getLastD ""
    else url
  let base1 := stripQueryFragment base0
  let base2 :=
    if filepathExt base1 == "" then addExtensionFromURL mp base1 url
    else base1
  Nat.repr index ++ "_" ++ base2

/-- `parseMediaNode`: accept a candidate node, or drop it silently (nil
attribute map, missing / non-string / empty `src`, or a configured URL
filter rejecting it). -/
def parseMediaNode (mp : MediaParser) : ContentNode → Nat → Option ParsedMedia
  | ContentNode.mk _ none _, _ => none
  | ContentNode.mk tag (some attrs) _, index =>
    match attrString attrs "src" with
    | none => none
    | some src =>
      if src == "" then none
      else if (match mp.urlFilter with
               | some f => !f src
               | none => false) then none
      else some
        { item := { url := src, filename := generateFilename mp src index },
          tag := tag,
          alt := extractStringAttr attrs "alt",
          title := extractStringAttr attrs "title",
          nodeIndex := index }

/-- The per-node candidate test of the walker's loop body: `isMediaTag`
guarding `parseMediaNode`. -/
def candidate (mp : MediaParser) (node : ContentNode) (index : Nat) :
    Option ParsedMedia :=
  if mp.isMediaTag node.tag then parseMediaNode mp node index else none

/-- `walkNodesForMedia`, fully consumed (the yield of `ExtractMedia` /
`ExtractMediaDetailed` always accepts): emitted items in order, plus the
final shared counter value. Per node: maybe-emit the node, then walk its
children, then the following siblings. -/
def walkNodesForMedia (mp : MediaParser) : List ContentNode → Nat →
    List ParsedMedia × Nat
  | [], i => ([], i)
  | ContentNode.mk tag attrs children :: rest, i =>
    match candidate mp (ContentNode.mk tag attrs children) i with
    | some item =>
      let sub := walkNodesForMedia mp children (i + 1)
      let tl := walkNodesForMedia mp rest sub.2
      (item :: (sub.1 ++ tl.1), tl.2)
    | none =>
      let sub := walkNodesForMedia mp children i
      let tl := walkNodesForMedia mp rest sub.2
      (sub.1 ++ tl.1, tl.2)

/-- `ExtractMediaDetailed`: the fully drained iterator. -/
def extractMediaDetailed (mp : MediaParser) (content : Content) :
    List ParsedMedia :=
  (walkNodesForMedia mp content.nodes 0).1

/-- `ExtractMedia`: the embedded `MediaItem` of each drained item. -/
def extractMedia (mp : MediaParser) (content : Content) : List MediaItem :=
  (extractMediaDetailed mp content).map (fun it => it.item)

/-- `countTotalNodes`: every node of the tree. -/
def countTotalNodes : List ContentNode → Nat
  | [] => 0
  | ContentNode.mk _ _ children :: rest =>
    1 + countTotalNodes children + countTotalNodes rest

/-- The running state of `ExtractWithStats`'s drain loop. -/
structure WSState where
  mediaItems : List MediaItem
  mediaNodes : Nat
  validMedia : Nat
  invalidMedia : Nat
  errors : List String
  urlSet : List String
  deriving Repr, DecidableEq

/-- One iteration of `ExtractWithStats`'s loop body. -/
def wsStep (st : WSState) (item : ParsedMedia) : WSState :=
  let st1 := { st with mediaNodes := st.mediaNodes + 1 }
  if item.item.url == "" then
    { st1 with
      invalidMedia := st1.invalidMedia + 1,
      errors := st1.errors ++ ["empty URL in node " ++ Nat.repr item.nodeIndex] }
  else
    let st2 := { st1 with
      validMedia := st1.validMedia + 1,
      mediaItems := st1.mediaItems ++ [item.item] }
    if st2.urlSet.contains item.item.url then st2
    else { st2 with urlSet := item.item.url :: st2.urlSet }

/-- Parsing statistics (the parser package's `Stats`; `Errors` as the list
of messages). -/
structure ParseStats where
  totalNodes : Nat
  mediaNodes : Nat
  validMedia : Nat
  invalidMedia : Nat
  uniqueURLs : Nat
  errors : List String
  deriving Repr, DecidableEq

/-- `ExtractWithStats`: drain the iterator, filtering empty-URL items and
collecting counters. -/
def extractWithStats (mp : MediaParser) (content : Content) :
    List MediaItem × ParseStats :=
  let st := (extractMediaDetailed mp content).foldl wsStep
    { mediaItems := [], mediaNodes := 0, validMedia := 0, invalidMedia := 0,
      errors := [], urlSet := [] }
  (st.mediaItems,
   { totalNodes := countTotalNodes content.nodes,
     mediaNodes := st.mediaNodes,
     validMedia := st.validMedia,
     invalidMedia := st.invalidMedia,
     uniqueURLs := st.urlSet.length,
     errors := st.errors })

/-- `DeduplicateURLs`'s stateful delete predicate, unrolled: keep an item
iff its URL is not in `seen`, extending `seen` with each kept URL (the Go
`slices.DeleteFunc` calls the closure once per element in order). -/
def dedupAux (seen : List String) : List MediaItem → List MediaItem
  | [] => []
  | item :: rest =>
    if seen.contains item.url then dedupAux seen rest
    else item :: dedupAux (item.url :: seen) rest

/-- `DeduplicateURLs`: remove later occurrences of an already-seen URL. -/
def deduplicateURLs (items : List MediaItem) : List MediaItem :=
  dedupAux [] items

/-- `walkNodesForMedia` run against a consumer that accepts only the first
`k` yield calls (a for-range loop that breaks after `k` items): returns the
updated shared counter, the total number of yield calls made, and the trace
of items passed to yield, in call order. Faithful to the source: the `return`
triggered by a declined yield exits only the current recursive invocation;
the caller's loop carries on with the following siblings. -/
def walkYield (mp : MediaParser) (k : Nat) : List ContentNode → Nat → Nat →
    Nat × Nat × List ParsedMedia
  | [], i, c => (i, c, [])
  | ContentNode.mk tag attrs children :: rest, i, c =>
    match candidate mp (ContentNode.mk tag attrs children) i with
    | some item =>
      if c < k then
        let sub := walkYield mp k children (i + 1) (c + 1)
        let tl := walkYield mp k rest sub.1 sub.2.1
        (tl.1, tl.2.1, item :: (sub.2.2 ++ tl.2.2))
      else
        (i, c + 1, [item])
    | none =>
      let sub := walkYield mp k children i c
      let tl := walkYield mp k rest sub.1 sub.2.1
      (tl.1, tl.2.1, sub.2.2 ++ tl.2.2)

/-- Modelled from the spec's words for comparison: strict pre-order document
traversal — an element before its children, children before following
siblings. -/
def preorderNodes : List ContentNode → List ContentNode
  | [] => []
  | ContentNode.mk tag attrs children :: rest =>
    ContentNode.mk tag attrs children :: (preorderNodes children ++ preorderNodes rest)

/-! ## downloader package (src worker pool, retry loop, per-job transfer)

I/O is modelled by oracles: the destination file as an optional size, the
HTTP transport as a per-attempt outcome, cancellation as boolean functions
of the attempt number. Errors are their Go message strings, since the
source's retry decision reads the message text. -/

/-- `Result`: outcome of one download job. Zero values as in Go: `size = 0`,
`error = none`, `skipped = false` unless set. -/
structure Result where
  item : MediaItem
  size : Int
  error : Option String
  skipped : Bool
  deriving Repr, DecidableEq

/-- A failed `Result` (only `Item` and `Error` set). -/
def failResult (item : MediaItem) (msg : String) : Result :=
  { item := item, size := 0, error := some msg, skipped := false }

/-- The `Result` built from `ctx.Err()` after cancellation. -/
def cancelResult (item : MediaItem) : Result :=
  failResult item "context canceled"

/-- `Stats` (Duration, pure wall-clock, is not modelled). -/
structure Stats where
  total : Nat
  successful : Nat
  failed : Nat
  skipped : Nat
  totalSize : Int
  deriving Repr, DecidableEq

/-- `Downloader` configuration (the HTTP client itself is an oracle). -/
structure Downloader where
  maxWorkers : Nat
  outputDir : String
  telegraphFileBase : String
  retries : Nat

/-- `buildURL`: keep an absolute http(s) URL, else prepend the file base. -/
def buildURL (d : Downloader) (url : String) : String :=
  if "http://".isPrefixOf url || "https://".isPrefixOf url then url
  else d.telegraphFileBase ++ url

/-- What `copyWithContext` returns for this attempt: the full byte count, or
a failure (context error, read error or write error) with the partial count
written so far. -/
inductive CopyOutcome where
  | copied (size : Int)
  | copyFailed (written : Int) (msg : String)
  deriving Repr, DecidableEq

/-- The transport's and filesystem's answers for one attempt: each stage
either passes or fails with the message Go would wrap. -/
structure AttemptEnv where
  reqErr : Option String
  connErr : Option String
  statusCode : Nat
  createErr : Option String
  copy : CopyOutcome
  deriving Repr, DecidableEq

/-- `MultiError.Error()`: `errors.Join` renders one message per line. -/
def multiErrorMsg : List String → String
  | [] => "no errors"
  | [e] => e
  | es => String.intercalate "\n" es

/-- `downloadFileWithContext`: one attempt. `dest` is the size of the file
currently at the destination path (`none` when absent). Returns the
`Result`, the destination file after the attempt, and how many HTTP
requests were issued (0 or 1). -/
def downloadFileWithContext (d : Downloader) (a : AttemptEnv)
    (item : MediaItem) (dest : Option Int) : Result × Option Int × Nat :=
  match dest with
  | some sz =>
    if sz > 0 then
      ({ item := item, size := sz, error := none, skipped := true }, some sz, 0)
    else downloadFetch d a item dest
  | none => downloadFetch d a item dest
where
  /-- The body after the skip check: build URL, request, status check,
  create, stream copy; on copy failure remove the partial file. -/
  downloadFetch (d : Downloader) (a : AttemptEnv) (item : MediaItem)
      (dest : Option Int) : Result × Option Int × Nat :=
    let fullURL := buildURL d item.url
    match a.reqErr with
    | some m => (failResult item ("failed to create request: " ++ m), dest, 0)
    | none =>
      match a.connErr with
      | some m => (failResult item ("HTTP request failed: " ++ m), dest, 1)
      | none =>
        if a.statusCode != 200 then
          (failResult item ("HTTP " ++ Nat.repr a.statusCode), dest, 1)
        else
          match a.createErr with
          | some m => (failResult item ("failed to create file: " ++ m), dest, 1)
          | none =>
            match a.copy with
            | CopyOutcome.copied sz =>
              ({ item := item, size := sz, error := none, skipped := false },
               some sz, 1)
            | CopyOutcome.copyFailed _ m =>
              (failResult item ("failed to copy file: " ++ m), none, 1)

/-- The cancellation signal and transport answers for a whole job. -/
structure RetryEnv where
  cancelledBefore : Nat → Bool
  cancelledDuringWait : Nat → Bool
  attempt : Nat → AttemptEnv

/-- What one job's execution produced, with the bookkeeping the claims talk
about: attempts actually performed, backoff waits performed (in seconds, in
order), HTTP requests issued, and the destination file left behind. -/
structure RetryOut where
  result : Result
  attemptsMade : Nat
  waits : List Nat
  httpCalls : Nat
  dest : Option Int
  deriving Repr, DecidableEq

/-- The loop of `downloadFileWithRetryAndContext`. `fuel` is the number of
loop iterations the `attempt <= retries` guard still allows, so the call
starts with `fuel = retries + 1` and `attempt = 0`. -/
def retryAux (d : Downloader) (env : RetryEnv) (item : MediaItem) :
    Nat → Nat → Option Int → List String → List Nat → Nat → RetryOut
  | 0, attempt, dest, errs, waits, calls =>
    { result := failResult item (multiErrorMsg errs), attemptsMade := attempt,
      waits := waits, httpCalls := calls, dest := dest }
  | fuel + 1, attempt, dest, errs, waits, calls =>
    if env.cancelledBefore attempt then
      { result := cancelResult item, attemptsMade := attempt,
        waits := waits, httpCalls := calls, dest := dest }
    else
      let r := downloadFileWithContext d (env.attempt attempt) item dest
      match r.1.error with
      | none =>
        { result := r.1, attemptsMade := attempt + 1,
          waits := waits, httpCalls := calls + r.2.2, dest := r.2.1 }
      | some e =>
        let errs2 := errs ++ ["attempt " ++ Nat.repr (attempt + 1) ++ ": " ++ e]
        if strContains e "404" then
          { result := failResult item (multiErrorMsg errs2),
            attemptsMade := attempt + 1, waits := waits,
            httpCalls := calls + r.2.2, dest := r.2.1 }
        else if attempt < d.retries then
          if env.cancelledDuringWait attempt then
            { result := cancelResult item, attemptsMade := attempt + 1,
              waits := waits, httpCalls := calls + r.2.2, dest := r.2.1 }
          else
            retryAux d env item fuel (attempt + 1) r.2.1 errs2
              (waits ++ [attempt + 1]) (calls + r.2.2)
        else
          retryAux d env item fuel (attempt + 1) r.2.1 errs2 waits (calls + r.2.2)

/-- `downloadFileWithRetryAndContext`: run the retry loop on a job, with
`dest0` the destination file found on disk at the start. -/
def downloadFileWithRetryAndContext (d : Downloader) (env : RetryEnv)
    (item : MediaItem) (dest0 : Option Int) : RetryOut :=
  retryAux d env item (d.retries + 1) 0 dest0 [] [] 0

/-- The aggregation step of `DownloadAllWithContext`'s drain loop: exactly
one counter incremented per result, size added only on the success branch. -/
def statsStep (s : Stats) (r : Result) : Stats :=
  if r.error.isSome then { s with failed := s.failed + 1 }
  else if r.skipped then { s with skipped := s.skipped + 1 }
  else { s with successful := s.successful + 1, totalSize := s.totalSize + r.size }

/-- Drain a result list into `Stats`, starting from `Total = n`. -/
def drainResults (n : Nat) (rs : List Result) : Stats :=
  rs.foldl statsStep
    { total := n, successful := 0, failed := 0, skipped := 0, totalSize := 0 }

/-! ## The worker pool of `DownloadAllWithContext`

The two buffered channels are queues (their capacity, `len(items)`, is never
exceeded, so sends never block), the job-sender goroutine, the workers and
the draining main loop are processes whose enabled steps interleave under an
arbitrary schedule. A step's guard not holding makes the step a no-op, so a
schedule is an arbitrary list of step names. Per-job work is atomic here:
`outcome j` is what `downloadFileWithRetryAndContext` would return for job
`j` before cancellation, `cancelResult j` after (its first context check). -/

/-- The pool's shared state. -/
structure PoolState where
  toSend : List MediaItem
  senderDone : Bool
  jobsBuf : List MediaItem
  jobsClosed : Bool
  activeWorkers : Nat
  resultsBuf : List Result
  resultsClosed : Bool
  collected : List Result
  cancelled : Bool
  deriving Repr, DecidableEq

/-- The schedulable steps of the pool. -/
inductive PoolStep where
  /-- The context fires (deadline or explicit abort). -/
  | cancel
  /-- The sender pushes the next item into the jobs channel. -/
  | sendJob
  /-- The sender's loop ends after the last item; the deferred close runs. -/
  | senderFinish
  /-- The sender takes the `ctx.Done()` select branch and returns; the
  deferred close runs, the unsent items are dropped. -/
  | senderAbort
  /-- A worker receives a job, runs it, and sends its result. -/
  | workerTake
  /-- A worker receives a job, runs it, but takes the `ctx.Done()` branch of
  the send select and returns: the result is dropped. -/
  | workerTakeDrop
  /-- A worker sees the jobs channel closed and drained, and returns. -/
  | workerExitClosed
  /-- A worker takes the `ctx.Done()` branch of the receive select and
  returns. -/
  | workerExitCancel
  /-- `wg.Wait` returns after the last worker; the results channel closes. -/
  | closeResults
  /-- The main loop drains one result (and aggregates it). -/
  | collect
  deriving Repr, DecidableEq

/-- One step of the pool; a step whose guard fails leaves the state as is. -/
def poolStep (outcome : MediaItem → Result) (a : PoolStep) (s : PoolState) :
    PoolState :=
  match a with
  | PoolStep.cancel => { s with cancelled := true }
  | PoolStep.sendJob =>
    match s.toSend with
    | [] => s
    | x :: rest =>
      if s.senderDone then s
      else { s with toSend := rest, jobsBuf := s.jobsBuf ++ [x] }
  | PoolStep.senderFinish =>
    if s.toSend.isEmpty && !s.senderDone then
      { s with senderDone := true, jobsClosed := true }
    else s
  | PoolStep.senderAbort =>
    if s.cancelled && !s.senderDone then
      { s with senderDone := true, jobsClosed := true }
    else s
  | PoolStep.workerTake =>
    match s.jobsBuf with
    | [] => s
    | j :: rest =>
      if s.activeWorkers == 0 then s
      else
        let r := if s.cancelled then cancelResult j else outcome j
        { s with jobsBuf := rest, resultsBuf := s.resultsBuf ++ [r] }
  | PoolStep.workerTakeDrop =>
    match s.jobsBuf with
    | [] => s
    | _ :: rest =>
      if s.cancelled && s.activeWorkers != 0 then
        { s with jobsBuf := rest, activeWorkers := s.activeWorkers - 1 }
      else s
  | PoolStep.workerExitClosed =>
    if s.activeWorkers != 0 && s.jobsClosed && s.jobsBuf.isEmpty then
      { s with activeWorkers := s.activeWorkers - 1 }
    else s
  | PoolStep.workerExitCancel =>
    if s.cancelled && s.activeWorkers != 0 then
      { s with activeWorkers := s.activeWorkers - 1 }
    else s
  | PoolStep.closeResults =>
    if s.activeWorkers == 0 && !s.resultsClosed then
      { s with resultsClosed := true }
    else s
  | PoolStep.collect =>
    match s.resultsBuf with
    | [] => s
    | r :: rest =>
      { s with resultsBuf := rest, collected := s.collected ++ [r] }

/-- The pool's state at entry to `DownloadAllWithContext`. -/
def poolInit (items : List MediaItem) (w : Nat) : PoolState :=
  { toSend := items, senderDone := false, jobsBuf := [], jobsClosed := false,
    activeWorkers := w, resultsBuf := [], resultsClosed := false,
    collected := [], cancelled := false }

/-- Run a schedule. -/
def poolRun (outcome : MediaItem → Result) (sched : List PoolStep)
    (s : PoolState) : PoolState :=
  sched.foldl (fun st a => poolStep outcome a st) s

/-- The main loop's `for result := range results` has ended: the channel is
closed and drained. Only then does `DownloadAllWithContext` return. -/
def poolDone (s : PoolState) : Prop :=
  s.resultsClosed = true ∧ s.resultsBuf = []

/-- `DownloadAllWithContext` as observed by the caller once a schedule has
driven the pool to completion: the aggregated `Stats` (with
`Total = len(items)`) and the collected result list, in completion order. -/
def downloadAllWithContext (d : Downloader) (outcome : MediaItem → Result)
    (items : List MediaItem) (sched : List PoolStep) : Stats × List Result :=
  let s := poolRun outcome sched (poolInit items d.maxWorkers)
  (drainResults items.length s.collected, s.collected)

/-! ## Walker lemmas: counter, dense indices, pre-order, non-empty URLs -/

/-- An accepted candidate carries the index it was offered, a filename
generated from its URL and that index, and a non-empty URL. -/
theorem candidate_some_fields {mp : MediaParser} {n : ContentNode} {i : Nat}
    {item : ParsedMedia} (h : candidate mp n i = some item) :
    item.nodeIndex = i
    ∧ item.item.filename = generateFilename mp item.item.url i
    ∧ item.item.url ≠ "" := by
  cases n with
  | mk tag attrs children =>
    unfold candidate at h
    split at h
    · cases attrs with
      | none => simp [parseMediaNode] at h
      | some al =>
        simp only [parseMediaNode] at h
        cases hs : attrString al "src" with
        | none => rw [hs] at h; simp at h
        | some src =>
          simp only [hs] at h
          by_cases hemp : (src == "") = true
          · simp only [if_pos hemp] at h; exact absurd h (by simp)
          · simp only [if_neg hemp] at h
            by_cases hfil : (match mp.urlFilter with
              | some f => !f src
              | none => false) = true
            · simp only [if_pos hfil] at h; exact absurd h (by simp)
            · simp only [if_neg hfil] at h
              obtain rfl := Option.some.inj h
              exact ⟨rfl, rfl, by simpa using hemp⟩
    · simp at h

/-- The accepted URL does not depend on the index offered. -/
theorem candidate_url_index {mp : MediaParser} {n : ContentNode} (i j : Nat) :
    (candidate mp n i).map (fun it => it.item.url)
      = (candidate mp n j).map (fun it => it.item.url) := by
  cases n with
  | mk tag attrs children =>
    unfold candidate
    split
    · cases attrs with
      | none => simp [parseMediaNode]
      | some al =>
        simp only [parseMediaNode]
        cases hs : attrString al "src" with
        | none => simp [hs]
        | some src =>
          simp only [hs]
          by_cases hemp : (src == "") = true
          · simp only [if_pos hemp]
          · simp only [if_neg hemp]
            by_cases hfil : (match mp.urlFilter with
              | some f => !f src
              | none => false) = true
            · simp only [if_pos hfil]
            · simp only [if_neg hfil]
              simp
    · rfl

/-- The shared counter advances by exactly the number of emitted items. -/
theorem walk_counter (mp : MediaParser) (ns : List ContentNode) (i : Nat) :
    (walkNodesForMedia mp ns i).2 = i + (walkNodesForMedia mp ns i).1.length := by
  induction ns, i using walkNodesForMedia.induct mp with
  | case1 i => simp [walkNodesForMedia]
  | case2 tag attrs children rest i item heq sub ihc ihr =>
    unfold sub at ihr
    simp only [walkNodesForMedia, heq, List.length_cons, List.length_append]
    omega
  | case3 tag attrs children rest i heq sub ihc ihr =>
    unfold sub at ihr
    simp only [walkNodesForMedia, heq, List.length_append]
    omega

/-- Dense indexing from `i`: each successive item carries the next counter
value, and its filename embeds that value. -/
def DenseFrom (mp : MediaParser) : Nat → List ParsedMedia → Prop
  | _, [] => True
  | i, item :: rest =>
    item.nodeIndex = i
    ∧ item.item.filename = generateFilename mp item.item.url i
    ∧ DenseFrom mp (i + 1) rest

theorem denseFrom_append {mp : MediaParser} {i : Nat} {xs ys : List ParsedMedia}
    (hx : DenseFrom mp i xs) (hy : DenseFrom mp (i + xs.length) ys) :
    DenseFrom mp i (xs ++ ys) := by
  induction xs generalizing i with
  | nil => simpa using hy
  | cons x xs ih =>
    rcases hx with ⟨h1, h2, h3⟩
    refine ⟨h1, h2, ih h3 ?_⟩
    simpa [Nat.add_assoc, Nat.add_comm 1 xs.length] using hy

/-- The walker emits densely indexed items starting at the counter value it
was handed. -/
theorem walk_dense (mp : MediaParser) (ns : List ContentNode) (i : Nat) :
    DenseFrom mp i (walkNodesForMedia mp ns i).1 := by
  induction ns, i using walkNodesForMedia.induct mp with
  | case1 i => simp [walkNodesForMedia, DenseFrom]
  | case2 tag attrs children rest i item heq sub ihc ihr =>
    unfold sub at ihr
    simp only [walkNodesForMedia, heq]
    obtain ⟨hidx, hfil, _⟩ := candidate_some_fields heq
    refine ⟨hidx, hfil, denseFrom_append ihc ?_⟩
    rwa [← walk_counter]
  | case3 tag attrs children rest i heq sub ihc ihr =>
    unfold sub at ihr
    simp only [walkNodesForMedia, heq]
    refine denseFrom_append ihc ?_
    rwa [← walk_counter]

theorem denseFrom_map_range {mp : MediaParser} {i : Nat} {l : List ParsedMedia}
    (h : DenseFrom mp i l) :
    l.map (fun it => it.nodeIndex) = List.range' i l.length := by
  induction l generalizing i with
  | nil => simp
  | cons x xs ih =>
    rcases h with ⟨h1, _, h3⟩
    simp [List.range'_succ, h1, ih h3]

theorem denseFrom_get {mp : MediaParser} {l : List ParsedMedia} {i : Nat}
    (h : DenseFrom mp i l) :
    ∀ j (hj : j < l.length),
      (l.get ⟨j, hj⟩).nodeIndex = i + j
      ∧ (l.get ⟨j, hj⟩).item.filename
        = generateFilename mp ((l.get ⟨j, hj⟩).item.url) (i + j) := by
  induction l generalizing i with
  | nil => intro j hj; simp at hj
  | cons x xs ih =>
    rcases h with ⟨h1, h2, h3⟩
    intro j hj
    cases j with
    | zero => simpa [h1] using h2
    | succ j =>
      have h4 := ih h3 j (Nat.lt_of_succ_lt_succ hj)
      have e : i + 1 + j = i + (j + 1) := by omega
      rw [e] at h4
      exact h4

/-- `generateFilename` literally starts with the decimal index and '_'. -/
theorem generateFilename_shape (mp : MediaParser) (url : String) (i : Nat) :
    ∃ b, generateFilename mp url i = Nat.repr i ++ "_" ++ b :=
  ⟨_, rfl⟩

/-- Every item the walker emits has a non-empty URL. -/
theorem walk_urls_ne_empty (mp : MediaParser) (ns : List ContentNode) (i : Nat) :
    ∀ it ∈ (walkNodesForMedia mp ns i).1, it.item.url ≠ "" := by
  induction ns, i using walkNodesForMedia.induct mp with
  | case1 i => simp [walkNodesForMedia]
  | case2 tag attrs children rest i item heq sub ihc ihr =>
    unfold sub at ihr
    simp only [walkNodesForMedia, heq]
    intro it hit
    rcases List.mem_cons.mp hit with h | h
    · subst h; exact (candidate_some_fields heq).2.2
    · rcases List.mem_append.mp h with h2 | h2
      · exact ihc it h2
      · exact ihr it h2
  | case3 tag attrs children rest i heq sub ihc ihr =>
    unfold sub at ihr
    simp only [walkNodesForMedia, heq]
    intro it hit
    rcases List.mem_append.mp hit with h2 | h2
    · exact ihc it h2
    · exact ihr it h2

/-- The walker's emission order refines the spec's pre-order flatten: it is
exactly the accepted candidates of the pre-order node sequence. -/
theorem walk_urls_preorder (mp : MediaParser) (ns : List ContentNode) (i : Nat) :
    (walkNodesForMedia mp ns i).1.map (fun it => it.item.url)
      = (preorderNodes ns).filterMap
          (fun n => (candidate mp n 0).map (fun it => it.item.url)) := by
  induction ns, i using walkNodesForMedia.induct mp with
  | case1 i => simp [walkNodesForMedia, preorderNodes]
  | case2 tag attrs children rest i item heq sub ihc ihr =>
    unfold sub at ihr
    have hz : (candidate mp (ContentNode.mk tag attrs children) 0).map
        (fun it => it.item.url) = some item.item.url := by
      rw [candidate_url_index 0 i, heq]
      rfl
    simp only [walkNodesForMedia, heq, preorderNodes, List.filterMap_cons,
      List.filterMap_append, hz, List.map_cons, List.map_append]
    rw [ihc, ihr]
  | case3 tag attrs children rest i heq sub ihc ihr =>
    unfold sub at ihr
    have hz : (candidate mp (ContentNode.mk tag attrs children) 0).map
        (fun it => it.item.url) = none := by
      rw [candidate_url_index 0 i, heq]
      rfl
    simp only [walkNodesForMedia, heq, preorderNodes, List.filterMap_cons,
      List.filterMap_append, hz, List.map_append]
    rw [ihc, ihr]

/-- `ExtractWithStats`'s drain loop keeps every item whose URL is non-empty,
in order, and touches neither the invalid counter nor the error list for
them. -/
theorem wsStep_fold_all_valid (l : List ParsedMedia) (st : WSState)
    (h : ∀ it ∈ l, it.item.url ≠ "") :
    (l.foldl wsStep st).mediaItems = st.mediaItems ++ l.map (fun it => it.item)
    ∧ (l.foldl wsStep st).invalidMedia = st.invalidMedia
    ∧ (l.foldl wsStep st).errors = st.errors := by
  induction l generalizing st with
  | nil => simp
  | cons x xs ih =>
    have hx : x.item.url ≠ "" := h x (List.mem_cons_self x xs)
    have hrest : ∀ it ∈ xs, it.item.url ≠ "" :=
      fun it hit => h it (List.mem_cons_of_mem x hit)
    have hstep : ∀ st1 : WSState, (wsStep st1 x).mediaItems
          = st1.mediaItems ++ [x.item]
        ∧ (wsStep st1 x).invalidMedia = st1.invalidMedia
        ∧ (wsStep st1 x).errors = st1.errors := by
      intro st1
      unfold wsStep
      rw [if_neg (by simpa using hx)]
      dsimp only
      refine ⟨?_, ?_, ?_⟩ <;> (split <;> rfl)
    have := ih (wsStep st x) hrest
    rcases this with ⟨h1, h2, h3⟩
    rcases hstep st with ⟨g1, g2, g3⟩
    refine ⟨?_, ?_, ?_⟩
    · rw [List.foldl_cons, h1, g1]
      simp
    · rw [List.foldl_cons, h2, g2]
    · rw [List.foldl_cons, h3, g3]

/-! ## Claim theorems: extractor -/

/-- C2: over any content tree, the emitted items carry node indices exactly
`0, 1, ..., n-1` in emission order, and each generated filename embeds its
item's index (decimal index, an underscore, then the basename): skipped
candidates and non-candidate nodes consume no index. -/
theorem c2_dense_indices (mp : MediaParser) (content : Content) :
    ((extractMediaDetailed mp content).map (fun it => it.nodeIndex)
        = List.range (extractMediaDetailed mp content).length)
    ∧ (∀ j (hj : j < (extractMediaDetailed mp content).length),
        ((extractMediaDetailed mp content).get ⟨j, hj⟩).item.filename
          = generateFilename mp
              (((extractMediaDetailed mp content).get ⟨j, hj⟩).item.url) j
        ∧ ∃ b, ((extractMediaDetailed mp content).get ⟨j, hj⟩).item.filename
            = Nat.repr j ++ "_" ++ b) := by
  have hd := walk_dense mp content.nodes 0
  constructor
  · rw [List.range_eq_range']
    exact denseFrom_map_range hd
  · intro j hj
    have hg := denseFrom_get hd j hj
    refine ⟨by simpa using hg.2, ?_⟩
    rw [(by simpa using hg.2 :
      ((extractMediaDetailed mp content).get ⟨j, hj⟩).item.filename
        = generateFilename mp
            (((extractMediaDetailed mp content).get ⟨j, hj⟩).item.url) j)]
    exact generateFilename_shape mp _ j

/-- C6: the extracted sequence is the pre-order document traversal filtered
to accepted candidates: an element before its children, children before
following siblings, a subtree exhausted before the next sibling subtree. -/
theorem c6_preorder (mp : MediaParser) (content : Content) :
    (extractMediaDetailed mp content).map (fun it => it.item.url)
      = (preorderNodes content.nodes).filterMap
          (fun n => (candidate mp n 0).map (fun it => it.item.url)) :=
  walk_urls_preorder mp content.nodes 0

/-- C10: `ExtractWithStats` returns exactly the item list of `ExtractMedia`:
the walker never yields an empty URL, so the empty-URL branch never fires
(no invalid item, no error collected). -/
theorem c10_extractWithStats_eq (mp : MediaParser) (content : Content) :
    (extractWithStats mp content).1 = extractMedia mp content
    ∧ (extractWithStats mp content).2.invalidMedia = 0
    ∧ (extractWithStats mp content).2.errors = [] := by
  have h := wsStep_fold_all_valid (extractMediaDetailed mp content)
    { mediaItems := [], mediaNodes := 0, validMedia := 0, invalidMedia := 0,
      errors := [], urlSet := [] }
    (walk_urls_ne_empty mp content.nodes 0)
  rcases h with ⟨h1, h2, h3⟩
  refine ⟨?_, ?_, ?_⟩
  · unfold extractWithStats extractMedia
    dsimp only
    rw [h1]
    simp
  · unfold extractWithStats
    dsimp only
    rw [h2]
  · unfold extractWithStats
    dsimp only
    rw [h3]

/-! ## Claim theorems: aggregation and deduplication -/

/-- A drained result counts as successful iff it carries no error and was
not skipped (the final `else` of the drain loop). -/
def isSuccessResult (r : Result) : Bool :=
  r.error.isNone && !r.skipped

theorem statsStep_cases (s : Stats) (r : Result) :
    (statsStep s r).successful + (statsStep s r).failed + (statsStep s r).skipped
      = s.successful + s.failed + s.skipped + 1
    ∧ (statsStep s r).totalSize
      = s.totalSize + (if isSuccessResult r then r.size else 0)
    ∧ (statsStep s r).total = s.total := by
  unfold statsStep isSuccessResult
  cases hr : r.error with
  | some e => refine ⟨?_, ?_, ?_⟩ <;> simp [hr] <;> omega
  | none =>
    by_cases hk : r.skipped <;> (refine ⟨?_, ?_, ?_⟩ <;> simp [hr, hk] <;> omega)

theorem statsFold_invariant (rs : List Result) (s : Stats) :
    (rs.foldl statsStep s).successful + (rs.foldl statsStep s).failed
        + (rs.foldl statsStep s).skipped
      = s.successful + s.failed + s.skipped + rs.length
    ∧ (rs.foldl statsStep s).totalSize
      = s.totalSize + ((rs.filter isSuccessResult).map (fun r => r.size)).sum
    ∧ (rs.foldl statsStep s).total = s.total := by
  induction rs generalizing s with
  | nil => simp
  | cons r rest ih =>
    rcases ih (statsStep s r) with ⟨h1, h2, h3⟩
    rcases statsStep_cases s r with ⟨g1, g2, g3⟩
    refine ⟨?_, ?_, ?_⟩
    · rw [List.foldl_cons, h1, g1]
      simp [Nat.add_assoc, Nat.add_comm 1 rest.length]
    · rw [List.foldl_cons, h2, g2]
      by_cases hr : isSuccessResult r <;> simp [hr] <;> ring
    · rw [List.foldl_cons, h3, g3]

/-- C9: after draining any result list, exactly one of the three counters
was incremented per result (their sum equals the number of drained
results, for every drained prefix), and `TotalSize` is exactly the sum of
the sizes of the successful results — skipped sizes are never added. -/
theorem c9_stats_aggregation (n : Nat) (rs : List Result) :
    (∀ k, (drainResults n (rs.take k)).successful
        + (drainResults n (rs.take k)).failed
        + (drainResults n (rs.take k)).skipped = (rs.take k).length)
    ∧ (drainResults n rs).totalSize
      = ((rs.filter isSuccessResult).map (fun r => r.size)).sum
    ∧ (drainResults n rs).total = n := by
  refine ⟨fun k => ?_, ?_, ?_⟩
  · have := (statsFold_invariant (rs.take k)
      { total := n, successful := 0, failed := 0, skipped := 0, totalSize := 0 }).1
    simpa [drainResults] using this
  · have := (statsFold_invariant rs
      { total := n, successful := 0, failed := 0, skipped := 0, totalSize := 0 }).2.1
    simpa [drainResults] using this
  · have := (statsFold_invariant rs
      { total := n, successful := 0, failed := 0, skipped := 0, totalSize := 0 }).2.2
    simpa [drainResults] using this

/-! ### Deduplication (C7) -/

theorem dedupAux_sublist (seen : List String) (l : List MediaItem) :
    (dedupAux seen l).Sublist l := by
  induction l generalizing seen with
  | nil => simp [dedupAux]
  | cons x xs ih =>
    unfold dedupAux
    split
    · exact (ih seen).cons x
    · exact (ih (x.url :: seen)).cons₂ x

theorem dedupAux_urls_not_seen (seen : List String) (l : List MediaItem) :
    ∀ x ∈ dedupAux seen l, seen.contains x.url = false := by
  induction l generalizing seen with
  | nil => simp [dedupAux]
  | cons y ys ih =>
    unfold dedupAux
    split
    · exact ih seen
    · rename_i hy
      intro x hx
      rcases List.mem_cons.mp hx with rfl | hx2
      · simpa using hy
      · have := ih (y.url :: seen) x hx2
        simp only [List.contains_cons, Bool.or_eq_false_iff] at this
        exact this.2

theorem dedupAux_urls_nodup (seen : List String) (l : List MediaItem) :
    ((dedupAux seen l).map (fun x => x.url)).Nodup := by
  induction l generalizing seen with
  | nil => simp [dedupAux]
  | cons y ys ih =>
    unfold dedupAux
    split
    · exact ih seen
    · simp only [List.map_cons, List.nodup_cons]
      refine ⟨?_, ih (y.url :: seen)⟩
      intro hmem
      rcases List.mem_map.mp hmem with ⟨x, hx, hurl⟩
      have := dedupAux_urls_not_seen (y.url :: seen) ys x hx
      simp only [List.contains_cons, Bool.or_eq_false_iff] at this
      have h2 := this.1
      rw [hurl] at h2
      simp at h2

theorem dedupAux_mem_iff (seen : List String) (l : List MediaItem)
    (x : MediaItem) :
    x ∈ dedupAux seen l
      ↔ seen.contains x.url = false
        ∧ ∃ l1 l2, l = l1 ++ x :: l2 ∧ ∀ y ∈ l1, y.url ≠ x.url := by
  induction l generalizing seen with
  | nil => simp [dedupAux]
  | cons z zs ih =>
    unfold dedupAux
    split
    · rename_i hz
      rw [ih seen]
      constructor
      · rintro ⟨hns, l1, l2, rfl, hfirst⟩
        refine ⟨hns, z :: l1, l2, rfl, ?_⟩
        intro y hy
        rcases List.mem_cons.mp hy with rfl | hy2
        · intro hurl
          rw [← hurl] at hns
          rw [hz] at hns
          exact Bool.true_eq_false.mp hns
        · exact hfirst y hy2
      · rintro ⟨hns, l1, l2, hdec, hfirst⟩
        cases l1 with
        | nil =>
          simp only [List.nil_append, List.cons.injEq] at hdec
          rw [← hdec.1] at hns
          rw [hz] at hns
          exact absurd hns (by simp)
        | cons w ws =>
          simp only [List.cons_append, List.cons.injEq] at hdec
          refine ⟨hns, ws, l2, hdec.2, ?_⟩
          exact fun y hy => hfirst y (List.mem_cons_of_mem w hy)
    · rename_i hz
      constructor
      · intro hmem
        rcases List.mem_cons.mp hmem with rfl | hmem2
        · exact ⟨by simpa using hz, [], zs, rfl, by simp⟩
        · rcases (ih (z.url :: seen)).mp hmem2 with ⟨hns, l1, l2, rfl, hfirst⟩
          simp only [List.contains_cons, Bool.or_eq_false_iff] at hns
          refine ⟨hns.2, z :: l1, l2, rfl, ?_⟩
          intro y hy
          rcases List.mem_cons.mp hy with rfl | hy2
          · intro hurl
            rw [hurl] at hns
            simp at hns
          · exact hfirst y hy2
      · rintro ⟨hns, l1, l2, hdec, hfirst⟩
        cases l1 with
        | nil =>
          simp only [List.nil_append, List.cons.injEq] at hdec
          rw [hdec.1]
          exact List.mem_cons_self x _
        | cons w ws =>
          simp only [List.cons_append, List.cons.injEq] at hdec
          refine List.mem_cons_of_mem z ?_
          refine (ih (z.url :: seen)).mpr ⟨?_, ws, l2, hdec.2, ?_⟩
          · simp only [List.contains_cons, Bool.or_eq_false_iff]
            refine ⟨?_, hns⟩
            have hzw : z.url ≠ x.url := by
              rw [hdec.1]
              exact hfirst w (List.mem_cons_self w ws)
            exact beq_eq_false_iff_ne.mpr (fun h => hzw h.symm)
          · exact fun y hy => hfirst y (List.mem_cons_of_mem w hy)

/-- C7: deduplication keeps a subsequence of the input (order and items
unchanged), the surviving URLs are pairwise distinct, and an item survives
iff it is a first occurrence of its URL (no earlier element of the list has
the same URL). -/
theorem c7_dedup_first_occurrence (items : List MediaItem) :
    (deduplicateURLs items).Sublist items
    ∧ ((deduplicateURLs items).map (fun x => x.url)).Nodup
    ∧ (∀ x : MediaItem, x ∈ deduplicateURLs items
        ↔ ∃ l1 l2, items = l1 ++ x :: l2 ∧ ∀ y ∈ l1, y.url ≠ x.url) := by
  refine ⟨dedupAux_sublist [] items, dedupAux_urls_nodup [] items, fun x => ?_⟩
  rw [deduplicateURLs, dedupAux_mem_iff [] items x]
  simp

/-! ## Retry-loop lemmas (C4, C5, C8) -/

/-- The error message one attempt produces once past the skip check:
`none` iff the transfer succeeds. -/
def attemptErr (a : AttemptEnv) : Option String :=
  match a.reqErr with
  | some m => some ("failed to create request: " ++ m)
  | none =>
    match a.connErr with
    | some m => some ("HTTP request failed: " ++ m)
    | none =>
      if a.statusCode != 200 then some ("HTTP " ++ Nat.repr a.statusCode)
      else
        match a.createErr with
        | some m => some ("failed to create file: " ++ m)
        | none =>
          match a.copy with
          | CopyOutcome.copied _ => none
          | CopyOutcome.copyFailed _ m => some ("failed to copy file: " ++ m)

/-- No pre-existing file of positive size sits at the destination (so the
skip check cannot fire). -/
def DestSmall (o : Option Int) : Prop :=
  ∀ s, o = some s → s ≤ 0

/-- An attempt against a skip-free destination reports exactly
`attemptErr`, and a failing attempt leaves the destination skip-free. -/
theorem downloadFileWithContext_error (d : Downloader) (a : AttemptEnv)
    (item : MediaItem) (dest : Option Int) (hd : DestSmall dest) :
    (downloadFileWithContext d a item dest).1.error = attemptErr a
    ∧ ((attemptErr a).isSome →
        DestSmall (downloadFileWithContext d a item dest).2.1) := by
  have hskip : downloadFileWithContext d a item dest
      = downloadFileWithContext.downloadFetch d a item dest := by
    unfold downloadFileWithContext
    cases hdd : dest with
    | none => rfl
    | some s =>
      have hs := hd s hdd
      dsimp only
      rw [if_neg (by omega)]
  rw [hskip]
  unfold downloadFileWithContext.downloadFetch attemptErr
  cases a.reqErr with
  | some m => exact ⟨rfl, fun _ => hd⟩
  | none =>
    cases a.connErr with
    | some m => exact ⟨rfl, fun _ => hd⟩
    | none =>
      by_cases hst : (a.statusCode != 200) = true
      · rw [if_pos hst, if_pos hst]
        exact ⟨rfl, fun _ => hd⟩
      · rw [if_neg hst, if_neg hst]
        cases a.createErr with
        | some m => exact ⟨rfl, fun _ => hd⟩
        | none =>
          cases a.copy with
          | copied sz => exact ⟨rfl, by intro h; simp at h⟩
          | copyFailed w m => exact ⟨rfl, fun _ => by intro s h; simp at h⟩

/-- All attempts from `attempt` on fail without "404" in the message: the
loop runs to the end of its budget, waiting `attempt+1, ..., retries`
seconds in between, and fails. -/
theorem retryAux_all_fail (d : Downloader) (env : RetryEnv) (item : MediaItem)
    (hc : ∀ t, env.cancelledBefore t = false)
    (hw : ∀ t, env.cancelledDuringWait t = false)
    (hf : ∀ t, ∃ e, attemptErr (env.attempt t) = some e
        ∧ strContains e "404" = false) :
    ∀ fuel attempt dest errs waits calls,
      fuel + attempt = d.retries + 1 →
      DestSmall dest →
      (retryAux d env item fuel attempt dest errs waits calls).attemptsMade
          = d.retries + 1
      ∧ (retryAux d env item fuel attempt dest errs waits calls).waits
          = waits ++ List.range' (attempt + 1) (d.retries - attempt)
      ∧ (retryAux d env item fuel attempt dest errs waits
          calls).result.error.isSome := by
  intro fuel
  induction fuel with
  | zero =>
    intro attempt dest errs waits calls hsum hd
    simp only [retryAux]
    refine ⟨by omega, ?_, by simp [failResult]⟩
    have : d.retries - attempt = 0 := by omega
    rw [this]
    simp
  | succ fuel ih =>
    intro attempt dest errs waits calls hsum hd
    simp only [retryAux, hc attempt, Bool.false_eq_true, if_false]
    obtain ⟨e, he, h404⟩ := hf attempt
    obtain ⟨herr, hpres⟩ :=
      downloadFileWithContext_error d (env.attempt attempt) item dest hd
    rw [herr, he]
    simp only [h404, Bool.false_eq_true, if_false]
    have hd2 : DestSmall (downloadFileWithContext d (env.attempt attempt)
        item dest).2.1 := hpres (by rw [he]; rfl)
    by_cases hlt : attempt < d.retries
    · rw [if_pos hlt]
      rw [hw attempt]
      simp only [Bool.false_eq_true, if_false]
      obtain ⟨g1, g2, g3⟩ := ih (attempt + 1) _ _ (waits ++ [attempt + 1]) _
        (by omega) hd2
      refine ⟨g1, ?_, g3⟩
      rw [g2, List.append_assoc]
      congr 1
      have h1 : d.retries - attempt = (d.retries - (attempt + 1)) + 1 := by omega
      rw [h1, List.range'_succ]
      rfl
    · rw [if_neg hlt]
      have hae : attempt = d.retries := by omega
      obtain ⟨g1, g2, g3⟩ := ih (attempt + 1) _ _ waits _ (by omega) hd2
      refine ⟨g1, ?_, g3⟩
      rw [g2]
      have h1 : d.retries - attempt = 0 := by omega
      have h2 : d.retries - (attempt + 1) = 0 := by omega
      rw [h1, h2]
      simp

/-- Attempts before `k` fail without "404", attempt `k` fails with "404" in
its message: the loop halts after exactly `k+1` attempts, with waits
`1, ..., k` and no wait after the halting attempt. -/
theorem retryAux_halt_404 (d : Downloader) (env : RetryEnv) (item : MediaItem)
    (hc : ∀ t, env.cancelledBefore t = false)
    (hw : ∀ t, env.cancelledDuringWait t = false) (k : Nat)
    (hk : k ≤ d.retries)
    (hf : ∀ t, t < k → ∃ e, attemptErr (env.attempt t) = some e
        ∧ strContains e "404" = false)
    (h4 : ∃ e, attemptErr (env.attempt k) = some e
        ∧ strContains e "404" = true) :
    ∀ fuel attempt dest errs waits calls,
      fuel + attempt = d.retries + 1 →
      attempt ≤ k →
      DestSmall dest →
      (retryAux d env item fuel attempt dest errs waits calls).attemptsMade
          = k + 1
      ∧ (retryAux d env item fuel attempt dest errs waits calls).waits
          = waits ++ List.range' (attempt + 1) (k - attempt)
      ∧ (retryAux d env item fuel attempt dest errs waits
          calls).result.error.isSome := by
  intro fuel
  induction fuel with
  | zero =>
    intro attempt dest errs waits calls hsum hak hd
    omega
  | succ fuel ih =>
    intro attempt dest errs waits calls hsum hak hd
    simp only [retryAux, hc attempt, Bool.false_eq_true, if_false]
    by_cases hek : attempt = k
    · subst hek
      obtain ⟨e, he, h404⟩ := h4
      obtain ⟨herr, _⟩ :=
        downloadFileWithContext_error d (env.attempt attempt) item dest hd
      rw [herr, he]
      dsimp only
      rw [if_pos h404]
      refine ⟨rfl, ?_, by simp [failResult]⟩
      rw [Nat.sub_self]
      simp
    · have hlt : attempt < k := by omega
      obtain ⟨e, he, h404⟩ := hf attempt hlt
      obtain ⟨herr, hpres⟩ :=
        downloadFileWithContext_error d (env.attempt attempt) item dest hd
      rw [herr, he]
      simp only [h404, Bool.false_eq_true, if_false]
      have hd2 : DestSmall (downloadFileWithContext d (env.attempt attempt)
          item dest).2.1 := hpres (by rw [he]; rfl)
      have hltr : attempt < d.retries := by omega
      rw [if_pos hltr]
      rw [hw attempt]
      simp only [Bool.false_eq_true, if_false]
      obtain ⟨g1, g2, g3⟩ := ih (attempt + 1) _ _ (waits ++ [attempt + 1]) _
        (by omega) (by omega) hd2
      refine ⟨g1, ?_, g3⟩
      rw [g2, List.append_assoc]
      congr 1
      have h1 : k - attempt = (k - (attempt + 1)) + 1 := by omega
      rw [h1, List.range'_succ]
      rfl

/-! ## Claim theorems: retry loop -/

/-- C4 (amended): the code halts early on any error whose *message text*
contains "404", not only on the not-found status class. For a job whose
attempts all fail with messages not containing "404", the download is
attempted exactly `retries+1` times with linear backoff waits `1, ..., retries`;
a failing attempt whose message contains "404" (0-based attempt `k`) halts
the job after exactly `k+1` attempts, with waits `1, ..., k` and none after
the halting attempt. -/
theorem c4_retry_and_backoff (d : Downloader) (env : RetryEnv)
    (item : MediaItem) (dest0 : Option Int)
    (hc : ∀ t, env.cancelledBefore t = false)
    (hw : ∀ t, env.cancelledDuringWait t = false)
    (hd : DestSmall dest0) :
    ((∀ t, ∃ e, attemptErr (env.attempt t) = some e
        ∧ strContains e "404" = false) →
      (downloadFileWithRetryAndContext d env item dest0).attemptsMade
          = d.retries + 1
      ∧ (downloadFileWithRetryAndContext d env item dest0).waits
          = List.range' 1 d.retries
      ∧ (downloadFileWithRetryAndContext d env item
          dest0).result.error.isSome)
    ∧ (∀ k, k ≤ d.retries →
        (∀ t, t < k → ∃ e, attemptErr (env.attempt t) = some e
            ∧ strContains e "404" = false) →
        (∃ e, attemptErr (env.attempt k) = some e
            ∧ strContains e "404" = true) →
        (downloadFileWithRetryAndContext d env item dest0).attemptsMade = k + 1
        ∧ (downloadFileWithRetryAndContext d env item dest0).waits
            = List.range' 1 k
        ∧ (downloadFileWithRetryAndContext d env item
            dest0).result.error.isSome) := by
  constructor
  · intro hf
    have h := retryAux_all_fail d env item hc hw hf (d.retries + 1) 0 dest0
      [] [] 0 (by omega) hd
    simpa [downloadFileWithRetryAndContext] using h
  · intro k hk hf h4
    have h := retryAux_halt_404 d env item hc hw k hk hf h4 (d.retries + 1) 0
      dest0 [] [] 0 (by omega) (by omega) hd
    simpa [downloadFileWithRetryAndContext] using h

/-- A job for the concrete retry scenarios. -/
def itemC4 : MediaItem :=
  { url := "https://cdn404.example.com/pic.jpg", filename := "0_pic.jpg" }

/-- A downloader with one retry (two allowed attempts). -/
def dC4 : Downloader :=
  { maxWorkers := 1, outputDir := "downloads",
    telegraphFileBase := "https://telegra.ph", retries := 1 }

/-- Every attempt fails with a connection error (no HTTP status at all)
whose text happens to contain "404" because the host name does. -/
def envC4 : RetryEnv :=
  { cancelledBefore := fun _ => false,
    cancelledDuringWait := fun _ => false,
    attempt := fun _ =>
      { reqErr := none,
        connErr := some "dial tcp: lookup cdn404.example.com: no such host",
        statusCode := 200, createErr := none,
        copy := CopyOutcome.copied 0 } }

/-- C4 counterexample: a job whose attempts all fail with errors outside
the not-found class (they are connection errors, not 404-status responses)
is halted after one attempt instead of `retries+1 = 2`: the code matches the
substring "404" in the message, which here comes from the host name. -/
theorem c4_counterexample :
    (∀ t, (attemptErr (envC4.attempt t)).isSome = true
      ∧ (envC4.attempt t).statusCode ≠ 404
      ∧ envC4.cancelledBefore t = false
      ∧ envC4.cancelledDuringWait t = false)
    ∧ dC4.retries + 1 = 2
    ∧ (downloadFileWithRetryAndContext dC4 envC4 itemC4 none).attemptsMade
        = 1 := by
  refine ⟨fun t => ⟨rfl, by simp [envC4], rfl, rfl⟩, rfl, ?_⟩
  decide

/-- A downloader with two retries (three allowed attempts). -/
def dC4w : Downloader :=
  { maxWorkers := 1, outputDir := "downloads",
    telegraphFileBase := "https://telegra.ph", retries := 2 }

/-- Every attempt answers HTTP 500. -/
def envC4w : RetryEnv :=
  { cancelledBefore := fun _ => false,
    cancelledDuringWait := fun _ => false,
    attempt := fun _ =>
      { reqErr := none, connErr := none, statusCode := 500,
        createErr := none, copy := CopyOutcome.copied 0 } }

/-- Witness for C4's amended theorem: three attempts under HTTP 500 with
retries = 2, and backoff waits of 1 and 2 seconds. -/
theorem c4_witness :
    (downloadFileWithRetryAndContext dC4w envC4w itemC4 none).attemptsMade = 3
    ∧ (downloadFileWithRetryAndContext dC4w envC4w itemC4 none).waits
        = [1, 2] := by
  have h := (c4_retry_and_backoff dC4w envC4w itemC4 none (fun _ => rfl)
    (fun _ => rfl) (fun s hs => by simp at hs)).1
    (fun t => ⟨"HTTP " ++ Nat.repr 500, rfl, by decide⟩)
  exact ⟨h.1, by simpa using h.2.1⟩

/-- C5: a pre-existing destination file of positive size makes the job
return Skipped with that size at once: no HTTP request is issued, a single
pass through the loop, no backoff wait. -/
theorem c5_skip_existing (d : Downloader) (env : RetryEnv) (item : MediaItem)
    (sz : Int) (hsz : sz > 0) (hc : env.cancelledBefore 0 = false) :
    (downloadFileWithRetryAndContext d env item (some sz)).result.skipped = true
    ∧ (downloadFileWithRetryAndContext d env item (some sz)).result.size = sz
    ∧ (downloadFileWithRetryAndContext d env item (some sz)).result.error = none
    ∧ (downloadFileWithRetryAndContext d env item (some sz)).httpCalls = 0
    ∧ (downloadFileWithRetryAndContext d env item (some sz)).attemptsMade = 1
    ∧ (downloadFileWithRetryAndContext d env item (some sz)).waits = [] := by
  unfold downloadFileWithRetryAndContext
  simp only [retryAux, hc, Bool.false_eq_true, if_false]
  have hdl : downloadFileWithContext d (env.attempt 0) item (some sz)
      = ({ item := item, size := sz, error := none, skipped := true },
         some sz, 0) := by
    unfold downloadFileWithContext
    dsimp only
    rw [if_pos hsz]
  rw [hdl]
  exact ⟨rfl, rfl, rfl, rfl, rfl, rfl⟩

/-- Witness for C5 at a concrete job: file of 1024 bytes already present. -/
theorem c5_witness :
    (downloadFileWithRetryAndContext dC4 envC4 itemC4
        (some 1024)).result.skipped = true
    ∧ (downloadFileWithRetryAndContext dC4 envC4 itemC4
        (some 1024)).result.size = 1024
    ∧ (downloadFileWithRetryAndContext dC4 envC4 itemC4
        (some 1024)).httpCalls = 0 := by
  have h := c5_skip_existing dC4 envC4 itemC4 1024 (by decide) rfl
  exact ⟨h.1, h.2.1, h.2.2.2.1⟩

/-- A failed job-level `Result` carries no size and is not marked skipped,
whatever the cancellation pattern and transport answers. -/
theorem retryAux_failed_result (d : Downloader) (env : RetryEnv)
    (item : MediaItem) :
    ∀ fuel attempt dest errs waits calls,
      (retryAux d env item fuel attempt dest errs waits
          calls).result.error.isSome →
      (retryAux d env item fuel attempt dest errs waits calls).result.size = 0
      ∧ (retryAux d env item fuel attempt dest errs waits
          calls).result.skipped = false := by
  intro fuel
  induction fuel with
  | zero => intro attempt dest errs waits calls _; exact ⟨rfl, rfl⟩
  | succ fuel ih =>
    intro attempt dest errs waits calls
    simp only [retryAux]
    by_cases hcb : env.cancelledBefore attempt = true
    · rw [if_pos hcb]; intro _; exact ⟨rfl, rfl⟩
    · rw [if_neg hcb]
      cases herr : (downloadFileWithContext d (env.attempt attempt)
          item dest).1.error with
      | none =>
        dsimp only
        intro h
        rw [herr] at h
        simp at h
      | some e =>
        dsimp only
        by_cases h404 : strContains e "404" = true
        · rw [if_pos h404]; intro _; exact ⟨rfl, rfl⟩
        · rw [if_neg h404]
          by_cases hlt : attempt < d.retries
          · rw [if_pos hlt]
            by_cases hcw : env.cancelledDuringWait attempt = true
            · rw [if_pos hcw]; intro _; exact ⟨rfl, rfl⟩
            · rw [if_neg hcw]; exact ih _ _ _ _ _
          · rw [if_neg hlt]; exact ih _ _ _ _ _

/-- A failed single attempt reports size 0 and no skip flag. -/
theorem downloadFileWithContext_failed (d : Downloader) (a : AttemptEnv)
    (item : MediaItem) (dest : Option Int) :
    (downloadFileWithContext d a item dest).1.error.isSome →
    (downloadFileWithContext d a item dest).1.size = 0
    ∧ (downloadFileWithContext d a item dest).1.skipped = false := by
  have hfetch : (downloadFileWithContext.downloadFetch d a item
        dest).1.error.isSome →
      (downloadFileWithContext.downloadFetch d a item dest).1.size = 0
      ∧ (downloadFileWithContext.downloadFetch d a item
          dest).1.skipped = false := by
    unfold downloadFileWithContext.downloadFetch
    cases a.reqErr with
    | some m => intro _; exact ⟨rfl, rfl⟩
    | none =>
      dsimp only
      cases a.connErr with
      | some m => intro _; exact ⟨rfl, rfl⟩
      | none =>
        dsimp only
        by_cases hst : (a.statusCode != 200) = true
        · rw [if_pos hst]; intro _; exact ⟨rfl, rfl⟩
        · rw [if_neg hst]
          cases a.createErr with
          | some m => intro _; exact ⟨rfl, rfl⟩
          | none =>
            dsimp only
            cases a.copy with
            | copied sz => intro h; simp at h
            | copyFailed w m => intro _; exact ⟨rfl, rfl⟩
  unfold downloadFileWithContext
  cases dest with
  | none => exact hfetch
  | some sz =>
    dsimp only
    by_cases hsz : sz > 0
    · rw [if_pos hsz]; intro h; simp at h
    · rw [if_neg hsz]; exact hfetch

/-- C8: (1) a job's `Result` never carries both a size and an error — a
failed job reports size 0 and no skip flag; (2) a failed single attempt
likewise discards the partial byte count; (3) an attempt that fails during
the streaming copy deletes the partial destination file and surfaces only
the wrapped copy error. -/
theorem c8_failure_cleanup (d : Downloader) (env : RetryEnv)
    (item : MediaItem) (dest0 : Option Int) (a : AttemptEnv)
    (dest : Option Int) :
    ((downloadFileWithRetryAndContext d env item
        dest0).result.error.isSome →
      (downloadFileWithRetryAndContext d env item dest0).result.size = 0
      ∧ (downloadFileWithRetryAndContext d env item
          dest0).result.skipped = false)
    ∧ ((downloadFileWithContext d a item dest).1.error.isSome →
        (downloadFileWithContext d a item dest).1.size = 0
        ∧ (downloadFileWithContext d a item dest).1.skipped = false)
    ∧ (∀ w m, a.copy = CopyOutcome.copyFailed w m →
        DestSmall dest →
        a.reqErr = none → a.connErr = none → a.statusCode = 200 →
        a.createErr = none →
        (downloadFileWithContext d a item dest).2.1 = none
        ∧ (downloadFileWithContext d a item dest).1.error
            = some ("failed to copy file: " ++ m)) := by
  refine ⟨retryAux_failed_result d env item _ 0 dest0 [] [] 0,
    downloadFileWithContext_failed d a item dest, ?_⟩
  intro w m hcopy hd hreq hconn hst hcreate
  have hskip : downloadFileWithContext d a item dest
      = downloadFileWithContext.downloadFetch d a item dest := by
    unfold downloadFileWithContext
    cases hdd : dest with
    | none => rfl
    | some s =>
      have hs := hd s hdd
      dsimp only
      rw [if_neg (by omega)]
  rw [hskip]
  unfold downloadFileWithContext.downloadFetch
  rw [hreq, hconn, hcreate, hcopy, hst]
  exact ⟨rfl, rfl⟩

/-! ## Claim theorems: worker pool (C1) -/

/-- The invariant of cancel-free pool executions: nothing is cancelled, jobs
are conserved across the four places they can sit, the sender closes only
after sending everything, workers exit only on a closed and drained jobs
channel, and the results channel closes only after every worker exited. -/
def PoolInv (n : Nat) (s : PoolState) : Prop :=
  s.cancelled = false
  ∧ s.toSend.length + s.jobsBuf.length + s.resultsBuf.length
      + s.collected.length = n
  ∧ (s.senderDone = true → s.toSend = [])
  ∧ (s.jobsClosed = true → s.senderDone = true)
  ∧ (s.activeWorkers = 0 → s.jobsClosed = true ∧ s.jobsBuf = [])
  ∧ (s.resultsClosed = true → s.activeWorkers = 0)

theorem poolStep_preserves (outcome : MediaItem → Result) (a : PoolStep)
    (ha : a ≠ PoolStep.cancel) (n : Nat) (s : PoolState) (h : PoolInv n s) :
    PoolInv n (poolStep outcome a s) := by
  obtain ⟨h1, h2, h3, h4, h5, h6⟩ := h
  cases a with
  | cancel => exact absurd rfl ha
  | sendJob =>
    cases hts : s.toSend with
    | nil =>
      have he : poolStep outcome PoolStep.sendJob s = s := by
        simp [poolStep, hts]
      rw [he]; exact ⟨h1, h2, h3, h4, h5, h6⟩
    | cons x rest =>
      by_cases hsd : s.senderDone = true
      · have he : poolStep outcome PoolStep.sendJob s = s := by
          simp [poolStep, hts, hsd]
        rw [he]; exact ⟨h1, h2, h3, h4, h5, h6⟩
      · have hsd2 : s.senderDone = false := by
          cases hv : s.senderDone
          · rfl
          · exact absurd hv hsd
        have he : poolStep outcome PoolStep.sendJob s
            = { s with toSend := rest, jobsBuf := s.jobsBuf ++ [x] } := by
          simp [poolStep, hts, hsd2]
        rw [he]
        refine ⟨h1, ?_, ?_, ?_, ?_, h6⟩
        · dsimp only
          rw [hts] at h2
          simp [List.length_append] at h2 ⊢
          omega
        · intro hh
          exact absurd hh (by simp [hsd2])
        · intro hh
          exact absurd (h4 hh) (by simp [hsd2])
        · intro hh
          exact absurd (h4 (h5 hh).1) (by simp [hsd2])
  | senderFinish =>
    by_cases hcond : (s.toSend.isEmpty && !s.senderDone) = true
    · have hts : s.toSend = [] := by
        simp only [Bool.and_eq_true] at hcond
        simpa [List.isEmpty_iff] using hcond.1
      have he : poolStep outcome PoolStep.senderFinish s
          = { s with senderDone := true, jobsClosed := true } := by
        simp [poolStep, hcond]
      rw [he]
      exact ⟨h1, h2, fun _ => hts, fun _ => rfl,
        fun hh => ⟨rfl, (h5 hh).2⟩, h6⟩
    · have he : poolStep outcome PoolStep.senderFinish s = s := by
        simp only [poolStep, hcond, Bool.false_eq_true, if_false]
      rw [he]; exact ⟨h1, h2, h3, h4, h5, h6⟩
  | senderAbort =>
    have hc : (s.cancelled && !s.senderDone) = false := by rw [h1]; rfl
    have he : poolStep outcome PoolStep.senderAbort s = s := by
      simp only [poolStep, hc, Bool.false_eq_true, if_false]
    rw [he]; exact ⟨h1, h2, h3, h4, h5, h6⟩
  | workerTake =>
    cases hjb : s.jobsBuf with
    | nil =>
      have he : poolStep outcome PoolStep.workerTake s = s := by
        simp [poolStep, hjb]
      rw [he]; exact ⟨h1, h2, h3, h4, h5, h6⟩
    | cons j rest =>
      by_cases haw : (s.activeWorkers == 0) = true
      · have he : poolStep outcome PoolStep.workerTake s = s := by
          simp [poolStep, hjb, haw]
        rw [he]; exact ⟨h1, h2, h3, h4, h5, h6⟩
      · have haw2 : (s.activeWorkers == 0) = false := by
          simpa using haw
        have he : poolStep outcome PoolStep.workerTake s
            = { s with jobsBuf := rest, resultsBuf := s.resultsBuf ++ [(if s.cancelled then cancelResult j else outcome j)] } := by
          simp only [poolStep, hjb, haw2, Bool.false_eq_true, if_false]
        rw [he]
        refine ⟨h1, ?_, h3, h4, ?_, h6⟩
        · dsimp only
          rw [hjb] at h2
          simp [List.length_append] at h2 ⊢
          omega
        · intro hh
          exact absurd hh (by simpa using haw)
  | workerTakeDrop =>
    cases hjb : s.jobsBuf with
    | nil =>
      have he : poolStep outcome PoolStep.workerTakeDrop s = s := by
        simp [poolStep, hjb]
      rw [he]; exact ⟨h1, h2, h3, h4, h5, h6⟩
    | cons j rest =>
      have hc : (s.cancelled && s.activeWorkers != 0) = false := by
        rw [h1]; rfl
      have he : poolStep outcome PoolStep.workerTakeDrop s = s := by
        simp only [poolStep, hjb, hc, Bool.false_eq_true, if_false]
      rw [he]; exact ⟨h1, h2, h3, h4, h5, h6⟩
  | workerExitClosed =>
    by_cases hcond :
        (s.activeWorkers != 0 && s.jobsClosed && s.jobsBuf.isEmpty) = true
    · have he : poolStep outcome PoolStep.workerExitClosed s
          = { s with activeWorkers := s.activeWorkers - 1 } := by
        simp only [poolStep, hcond, if_true]
      rw [he]
      simp only [Bool.and_eq_true] at hcond
      refine ⟨h1, h2, h3, h4, ?_, ?_⟩
      · intro _
        exact ⟨hcond.1.2, by simpa [List.isEmpty_iff] using hcond.2⟩
      · intro hh
        exact absurd (h6 hh) (by simpa using hcond.1.1)
    · have he : poolStep outcome PoolStep.workerExitClosed s = s := by
        simp only [poolStep, hcond, Bool.false_eq_true, if_false]
      rw [he]; exact ⟨h1, h2, h3, h4, h5, h6⟩
  | workerExitCancel =>
    have hc : (s.cancelled && s.activeWorkers != 0) = false := by
      rw [h1]; rfl
    have he : poolStep outcome PoolStep.workerExitCancel s = s := by
      simp only [poolStep, hc, Bool.false_eq_true, if_false]
    rw [he]; exact ⟨h1, h2, h3, h4, h5, h6⟩
  | closeResults =>
    by_cases hcond : (s.activeWorkers == 0 && !s.resultsClosed) = true
    · have he : poolStep outcome PoolStep.closeResults s
          = { s with resultsClosed := true } := by
        simp only [poolStep, hcond, if_true]
      rw [he]
      simp only [Bool.and_eq_true] at hcond
      exact ⟨h1, h2, h3, h4, h5, fun _ => by simpa using hcond.1⟩
    · have he : poolStep outcome PoolStep.closeResults s = s := by
        simp only [poolStep, hcond, Bool.false_eq_true, if_false]
      rw [he]; exact ⟨h1, h2, h3, h4, h5, h6⟩
  | collect =>
    cases hrb : s.resultsBuf with
    | nil =>
      have he : poolStep outcome PoolStep.collect s = s := by
        simp [poolStep, hrb]
      rw [he]; exact ⟨h1, h2, h3, h4, h5, h6⟩
    | cons r rest =>
      have he : poolStep outcome PoolStep.collect s
          = { s with resultsBuf := rest, collected := s.collected ++ [r] } := by
        simp only [poolStep, hrb]
      rw [he]
      refine ⟨h1, ?_, h3, h4, h5, h6⟩
      dsimp only
      rw [hrb] at h2
      simp [List.length_append] at h2 ⊢
      omega

theorem poolRun_preserves (outcome : MediaItem → Result)
    (sched : List PoolStep) (hs : ∀ a ∈ sched, a ≠ PoolStep.cancel) (n : Nat)
    (s : PoolState) (h : PoolInv n s) : PoolInv n (poolRun outcome sched s) := by
  induction sched generalizing s with
  | nil => exact h
  | cons a rest ih =>
    exact ih (fun b hb => hs b (List.mem_cons_of_mem a hb)) _
      (poolStep_preserves outcome a (hs a (List.mem_cons_self a rest)) n s h)

theorem poolInit_inv (items : List MediaItem) (w : Nat) (hw : w ≠ 0) :
    PoolInv items.length (poolInit items w) := by
  refine ⟨rfl, by simp [poolInit], by simp [poolInit], by simp [poolInit],
    ?_, by simp [poolInit]⟩
  intro hh
  exact absurd hh hw

/-- C1 (amended): when the cancellation signal never fires and at least one
worker is configured, every completed run returns exactly one Result per
job: the returned list's length equals `Stats.Total = len(items)`. (Under
cancellation jobs can be dropped — see the counterexample.) -/
theorem c1_results_complete (d : Downloader) (outcome : MediaItem → Result)
    (items : List MediaItem) (sched : List PoolStep)
    (hw : d.maxWorkers ≠ 0)
    (hnc : ∀ a ∈ sched, a ≠ PoolStep.cancel)
    (hdone : poolDone (poolRun outcome sched (poolInit items d.maxWorkers))) :
    (downloadAllWithContext d outcome items sched).2.length = items.length
    ∧ (downloadAllWithContext d outcome items sched).1.total
        = items.length := by
  have hinv := poolRun_preserves outcome sched hnc items.length _
    (poolInit_inv items d.maxWorkers hw)
  obtain ⟨h1, h2, h3, h4, h5, h6⟩ := hinv
  obtain ⟨hrc, hrb⟩ := hdone
  have haw := h6 hrc
  obtain ⟨hjc, hjb⟩ := h5 haw
  have hts := h3 (h4 hjc)
  have hlen : (poolRun outcome sched
      (poolInit items d.maxWorkers)).collected.length = items.length := by
    rw [hts, hjb, hrb] at h2
    simpa using h2
  constructor
  · unfold downloadAllWithContext
    dsimp only
    exact hlen
  · unfold downloadAllWithContext drainResults
    dsimp only
    rw [(statsFold_invariant _ _).2.2]

/-- One job for the pool scenarios. -/
def itemC1 : MediaItem :=
  { url := "https://telegra.ph/file/x.jpg", filename := "0_x.jpg" }

/-- Each job, run uncancelled, would succeed with 7 bytes. -/
def outcomeC1 : MediaItem → Result :=
  fun it => { item := it, size := 7, error := none, skipped := false }

/-- The schedule refuting C1: the context fires before the sender pushes the
job; the sender aborts (dropping the job), the worker exits on `ctx.Done()`,
the results channel closes — the run completes with no Result at all. -/
def schedC1 : List PoolStep :=
  [PoolStep.cancel, PoolStep.senderAbort, PoolStep.workerExitCancel,
   PoolStep.closeResults]

/-- C1 counterexample: with one job and one worker, cancellation before
dispatch completes the run with zero Results while `Stats.Total = 1`: the
pending job yields no Result at all, cancellation error included. -/
theorem c1_counterexample :
    poolDone (poolRun outcomeC1 schedC1 (poolInit [itemC1] dC4.maxWorkers))
    ∧ (downloadAllWithContext dC4 outcomeC1 [itemC1] schedC1).1.total = 1
    ∧ (downloadAllWithContext dC4 outcomeC1 [itemC1] schedC1).2.length = 0 :=
  ⟨⟨rfl, rfl⟩, rfl, rfl⟩

/-- A cancel-free schedule completing the same one-job run. -/
def schedC1ok : List PoolStep :=
  [PoolStep.sendJob, PoolStep.senderFinish, PoolStep.workerTake,
   PoolStep.workerExitClosed, PoolStep.closeResults, PoolStep.collect]

/-- Witness for C1's amended theorem at a concrete cancel-free run: the one
job yields exactly one Result and Total = 1. -/
theorem c1_witness :
    (downloadAllWithContext dC4 outcomeC1 [itemC1] schedC1ok).2.length = 1
    ∧ (downloadAllWithContext dC4 outcomeC1 [itemC1] schedC1ok).1.total = 1 := by
  have h := c1_results_complete dC4 outcomeC1 [itemC1] schedC1ok
    (by decide) (by decide) ⟨rfl, rfl⟩
  simpa using h

/-! ## C3: the early-termination contract of the walker -/

/-- The tree refuting the laziness contract: a subtree holding two media
nodes, followed by a sibling media node at the outer level. -/
def treeC3 : List ContentNode :=
  [ContentNode.mk "div" none
     [ContentNode.mk "img"
        (some [("src", AttrVal.str "https://telegra.ph/file/a.jpg")]) [],
      ContentNode.mk "img"
        (some [("src", AttrVal.str "https://telegra.ph/file/b.jpg")]) []],
   ContentNode.mk "img"
     (some [("src", AttrVal.str "https://telegra.ph/file/c.jpg")]) []]

/-- C3 (the code violates it): a consumer accepting only the first item
(k = 1) declines at the second yield call — yet the walker keeps going: the
recursive call's early return is not propagated, the following sibling
subtree is still visited, and yield is invoked a third time (on c.jpg),
against the iterator contract. With stop propagation there would be at most
k + 1 = 2 calls. -/
theorem c3_walker_ignores_stop :
    (walkYield defaultParser 1 treeC3 0 0).2.1 = 3
    ∧ ((walkYield defaultParser 1 treeC3 0 0).2.2.map
        (fun it => it.item.url))
      = ["https://telegra.ph/file/a.jpg", "https://telegra.ph/file/b.jpg",
         "https://telegra.ph/file/c.jpg"]
    ∧ 1 + 1 < 3 := by
  refine ⟨?_, ?_, by omega⟩ <;>
    simp [walkYield, treeC3, candidate, parseMediaNode, MediaParser.isMediaTag,
      defaultParser, attrString, lookupAttr, ContentNode.tag]

end TeleDL
